import Mathlib

/-!
Verification of the staged-write dictionary overlay in src/dict_overlay.py.

A `DictOverlay` keeps a borrowed base mapping untouched while edits are
recorded in a staging store; reads consult the staging store first and
fall through to the base.  Python dicts are modelled as insertion-ordered
association lists with unique keys; the module-private deletion sentinel
`_DELETED` is modelled by the tagged `Entry.Tombstone` variant, which is
faithful because the sentinel is compared only by identity and can never
alias a legal value.  Raised `KeyError` is modelled by `Except`, carrying
the offending key.
-/

set_option autoImplicit false
set_option linter.unnecessarySeqFocus false

variable {V : Type} {α : Type} {β : Type}

/-- Keys, modelled as naturals (the code only needs hashable keys with
identity-compatible equality). -/
abbrev Key := Nat

/-- A Python dict: an insertion-ordered association list with unique keys. -/
abbrev Dict (α : Type) := List (Key × α)

/-- Dict lookup: the value stored at `k`, if any (first occurrence). -/
def dictLookup (k : Key) : Dict α → Option α
  | [] => none
  | (k', v) :: rest => if k' = k then some v else dictLookup k rest

/-- Dict assignment `d[k] = v`: overwrite in place if `k` is bound,
otherwise append at the end, as Python dicts do. -/
def dictInsert (k : Key) (v : α) : Dict α → Dict α
  | [] => [(k, v)]
  | (k', v') :: rest =>
    if k' = k then (k, v) :: rest else (k', v') :: dictInsert k v rest

/-- Dict deletion `del d[k]` (a no-op when `k` is absent; on a unique-key
dict removing the sole binding is the same as filtering the key out). -/
def dictErase (k : Key) (l : Dict α) : Dict α :=
  l.filter (fun p => p.1 ≠ k)

/-- The keys of a dict, in insertion order. -/
def dictKeys (l : Dict α) : List Key :=
  l.map Prod.fst

/-- A staged entry: a pending write `Present v`, or the deletion sentinel
`_DELETED` (a pending deletion). -/
inductive Entry (V : Type) where
  | Present (v : V)
  | Tombstone
  deriving DecidableEq

/-- State of a `DictOverlay`: the borrowed base dict, the staging dict
`self.staged`, and the cached length `self.len`.  (`self.values`, the
ChainMap of staged over base, is a derived view, modelled by
`valuesLookup` below.)  `len` is an integer because the code can drive
it negative. -/
structure DictOverlay (V : Type) where
  base : Dict V
  staged : Dict (Entry V)
  len : Int
  deriving DecidableEq

/-- Construction (`__init__`): staging starts empty and the cached length
is the base dict's length. -/
def DictOverlay.init (base : Dict V) : DictOverlay V :=
  { base := base, staged := [], len := (base.length : Int) }

/-- Lookup in `self.values = ChainMap(self.staged, self.base)`: the staged
entry if one exists, otherwise the base value (as a `Present` entry). -/
def DictOverlay.valuesLookup (d : DictOverlay V) (k : Key) : Option (Entry V) :=
  match dictLookup k d.staged with
  | some e => some e
  | none => (dictLookup k d.base).map Entry.Present

/-- `key in self.values`: membership in the ChainMap, which holds for a
tombstoned key too. -/
def DictOverlay.valuesContains (d : DictOverlay V) (k : Key) : Bool :=
  (d.valuesLookup k).isSome

/-- `__getitem__`: read through the ChainMap; a tombstone raises
`KeyError(key)`, as does an absent key. -/
def DictOverlay.getItem (d : DictOverlay V) (k : Key) : Except Key V :=
  match d.valuesLookup k with
  | some (Entry.Present v) => Except.ok v
  | some Entry.Tombstone => Except.error k
  | none => Except.error k

/-- `__setitem__`: bump `self.len` when the key is not in the ChainMap
(note: a tombstoned key IS in the ChainMap), then stage the write. -/
def DictOverlay.setItem (d : DictOverlay V) (k : Key) (v : V) : DictOverlay V :=
  { d with
    staged := dictInsert k (Entry.Present v) d.staged,
    len := if d.valuesContains k then d.len else d.len + 1 }

/-- `__delitem__`: raise `KeyError` when the key is absent from the
ChainMap or already tombstoned; otherwise stage a tombstone and
decrement `self.len`. -/
def DictOverlay.delItem (d : DictOverlay V) (k : Key) : Except Key (DictOverlay V) :=
  match d.valuesLookup k with
  | some (Entry.Present _) =>
    Except.ok { d with staged := dictInsert k Entry.Tombstone d.staged, len := d.len - 1 }
  | some Entry.Tombstone => Except.error k
  | none => Except.error k

/-- `__delitem__` with the `KeyError` caught: on failure the state is
unchanged (the raise happens before any mutation). -/
def DictOverlay.delD (d : DictOverlay V) (k : Key) : DictOverlay V :=
  match d.delItem k with
  | Except.ok d2 => d2
  | Except.error _ => d

/-- One step of the `flush` loop: apply a single staged entry to the base
(a tombstone deletes the key if present; a pending write stores it). -/
def applyEntry (b : Dict V) (k : Key) : Entry V → Dict V
  | Entry.Tombstone => dictErase k b
  | Entry.Present v => dictInsert k v b

/-- `flush`: fold every staged entry into the base, then clear staging.
`self.len` is not touched. -/
def DictOverlay.flush (d : DictOverlay V) : DictOverlay V :=
  { d with
    base := d.staged.foldl (fun b p => applyEntry b p.1 p.2) d.base,
    staged := [] }

/-- `reset`: clear staging and recompute `self.len` from the base. -/
def DictOverlay.reset (d : DictOverlay V) : DictOverlay V :=
  { d with staged := [], len := (d.base.length : Int) }

/-- `__len__`: the cached counter. -/
def DictOverlay.size (d : DictOverlay V) : Int :=
  d.len

/-- Key order of `iter(self.values)`: base keys first (in base order),
then staged keys not already in the base (in staging order), each key
once, following `ChainMap.__iter__`. -/
def DictOverlay.valuesKeys (d : DictOverlay V) : List Key :=
  dictKeys d.base ++ (dictKeys d.staged).filter (fun k => decide (k ∉ dictKeys d.base))

/-- The presence predicate of the spec: the effective entry for `k`
(staged over base) exists and is `Present`. -/
def DictOverlay.isPresent (d : DictOverlay V) (k : Key) : Bool :=
  match d.valuesLookup k with
  | some (Entry.Present _) => true
  | _ => false

/-- `__iter__`: the keys of the ChainMap whose value is not the deletion
sentinel, in ChainMap order. -/
def DictOverlay.iterKeys (d : DictOverlay V) : List Key :=
  d.valuesKeys.filter (fun k => d.isPresent k)

/-- `__contains__` (inherited from `Mapping`): try `__getitem__` and
report whether it raised `KeyError`. -/
def DictOverlay.contains (d : DictOverlay V) (k : Key) : Bool :=
  match d.getItem k with
  | Except.ok _ => true
  | Except.error _ => false

/-- Loop of `changed()`, reading each staged key back through
`self[k]` as the literal filter condition does; a raised `KeyError`
propagates out of the generator when it is consumed.  (As written the
generator expression is malformed Python; this models the evident
filter reading `k for k in self.staged if self[k] is not self._DELETED`.
When `self[k]` succeeds it never returns the sentinel, so the condition
is then true.) -/
def changedAux (d : DictOverlay V) : List (Key × Entry V) → Except Key (List Key)
  | [] => Except.ok []
  | (k, _) :: rest =>
    match d.getItem k with
    | Except.error e => Except.error e
    | Except.ok _ => (changedAux d rest).map (fun l => k :: l)

/-- `changed()`, fully consumed. -/
def DictOverlay.changed (d : DictOverlay V) : Except Key (List Key) :=
  changedAux d d.staged

/-- Loop of `deleted()`: filter condition `self[k] is self._DELETED`,
again read through `self[k]`, which raises on exactly the tombstoned
keys; when it succeeds the value is never the sentinel, so the
condition is then false and the key is skipped. -/
def deletedAux (d : DictOverlay V) : List (Key × Entry V) → Except Key (List Key)
  | [] => Except.ok []
  | (k, _) :: rest =>
    match d.getItem k with
    | Except.error e => Except.error e
    | Except.ok _ => deletedAux d rest

/-- `deleted()`, fully consumed. -/
def DictOverlay.deleted (d : DictOverlay V) : Except Key (List Key) :=
  deletedAux d d.staged

/-- Well-formedness inherited from Python dicts: unique keys in the base
and in the staging store. -/
def DictOverlay.WF (d : DictOverlay V) : Prop :=
  (dictKeys d.base).Nodup ∧ (dictKeys d.staged).Nodup

/-- The size invariant of the spec: the cached counter equals the number
of logically present keys. -/
def DictOverlay.sizeInv (d : DictOverlay V) : Prop :=
  d.len = (d.iterKeys.length : Int)

/-- The operations of the external interface, for reasoning about
arbitrary call sequences. -/
inductive Op (V : Type) where
  | get (k : Key)
  | set (k : Key) (v : V)
  | del (k : Key)
  | changedOp
  | deletedOp
  | enumerateOp
  | sizeOp
  | discardOp

/-- State transition of one call: `get`, `changed`, `deleted`, `enumerate`
and `size` only read (they compute a result from the state and leave it
as is, exactly as the methods only perform lookups); `set`, `del` and
`discard` update it as the corresponding methods do. -/
def applyOp (d : DictOverlay V) : Op V → DictOverlay V
  | Op.get _ => d
  | Op.set k v => d.setItem k v
  | Op.del k => d.delD k
  | Op.changedOp => d
  | Op.deletedOp => d
  | Op.enumerateOp => d
  | Op.sizeOp => d
  | Op.discardOp => d.reset

/-- Run a sequence of calls from a starting state. -/
def run (d : DictOverlay V) (ops : List (Op V)) : DictOverlay V :=
  ops.foldl applyOp d

/-- The `flush` loop against a base whose write operation can fail:
`fail k` says that storing key `k` into the base raises.  The loop
returns the base built so far and whether it ran to completion; on a
failure the loop stops with the entries already applied kept. -/
def flushFAux (fail : Key → Bool) : Dict V → List (Key × Entry V) → Dict V × Bool
  | b, [] => (b, true)
  | b, (k, Entry.Tombstone) :: rest => flushFAux fail (dictErase k b) rest
  | b, (k, Entry.Present v) :: rest =>
    if fail k then (b, false) else flushFAux fail (dictInsert k v b) rest

/-- `flush` when base writes can fail: on success staging is cleared as
usual; when a write raises, the exception propagates before
`self.staged.clear()` runs, so the overlay keeps its staging store and
cached length, with the partially updated base. -/
def flushF (fail : Key → Bool) (d : DictOverlay V) : DictOverlay V × Bool :=
  if (flushFAux fail d.base d.staged).2
  then ({ base := (flushFAux fail d.base d.staged).1, staged := [], len := d.len }, true)
  else ({ d with base := (flushFAux fail d.base d.staged).1 }, false)

/-- A worked example state: base maps `0 ↦ 5` and `1 ↦ 6`, with a staged
deletion of `1` and a staged write `2 ↦ 7`; its two present keys are
`0` and `2`, matching the cached length. -/
def exOverlay : DictOverlay Nat :=
  { base := [(0, 5), (1, 6)],
    staged := [(1, Entry.Tombstone), (2, Entry.Present 7)],
    len := 2 }

/-! Basic lemmas about the dict model. -/

theorem dictLookup_eq_none (k : Key) (l : Dict α) :
    dictLookup k l = none ↔ k ∉ dictKeys l := by
  induction l with
  | nil => simp [dictLookup, dictKeys]
  | cons p rest ih =>
    obtain ⟨k', v⟩ := p
    by_cases h : k' = k <;> simp [dictLookup, dictKeys, h, ih] <;> tauto

theorem dictLookup_isSome (k : Key) (l : Dict α) :
    (dictLookup k l).isSome = true ↔ k ∈ dictKeys l := by
  cases h : dictLookup k l with
  | none => simpa using (dictLookup_eq_none k l).1 h
  | some v =>
    have : ¬ dictLookup k l = none := by simp [h]
    simpa using (not_iff_not.2 (dictLookup_eq_none k l)).1 this

theorem dictLookup_insert_self (k : Key) (v : α) (l : Dict α) :
    dictLookup k (dictInsert k v l) = some v := by
  induction l with
  | nil => simp [dictInsert, dictLookup]
  | cons p rest ih =>
    obtain ⟨k', v'⟩ := p
    by_cases h : k' = k <;> simp [dictInsert, dictLookup, h, ih]

theorem dictLookup_insert_ne (k k' : Key) (v : α) (l : Dict α) (h : k' ≠ k) :
    dictLookup k' (dictInsert k v l) = dictLookup k' l := by
  induction l with
  | nil => simp [dictInsert, dictLookup, Ne.symm h]
  | cons p rest ih =>
    obtain ⟨a, b⟩ := p
    by_cases ha : a = k
    · subst ha
      simp [dictInsert, dictLookup, Ne.symm h]
    · by_cases ha' : a = k'
      · subst ha'
        simp [dictInsert, dictLookup, ha]
      · simp [dictInsert, dictLookup, ha, ha', ih]

theorem dictLookup_erase_self (k : Key) (l : Dict α) :
    dictLookup k (dictErase k l) = none := by
  induction l with
  | nil => rfl
  | cons p rest ih =>
    obtain ⟨a, b⟩ := p
    by_cases h : a = k <;> simp [dictErase, List.filter_cons, h, dictLookup] at * <;>
      exact ih

theorem dictLookup_erase_ne (k k' : Key) (l : Dict α) (h : k' ≠ k) :
    dictLookup k' (dictErase k l) = dictLookup k' l := by
  induction l with
  | nil => rfl
  | cons p rest ih =>
    obtain ⟨a, b⟩ := p
    by_cases ha : a = k
    · subst ha
      simpa [dictErase, List.filter_cons, dictLookup, Ne.symm h] using ih
    · by_cases ha' : a = k'
      · subst ha'
        simp [dictErase, List.filter_cons, dictLookup, ha]
      · simp only [dictErase] at ih ⊢
        simpa [List.filter_cons, dictLookup, ha, ha'] using ih

theorem dictKeys_erase (k : Key) (l : Dict α) :
    dictKeys (dictErase k l) = (dictKeys l).filter (fun a => decide (a ≠ k)) := by
  induction l with
  | nil => rfl
  | cons p rest ih =>
    obtain ⟨a, b⟩ := p
    by_cases h : a = k <;> simp [dictErase, dictKeys, List.filter_cons, h] at * <;> exact ih

theorem dictKeys_insert_of_ne (k k' : Key) (v : α) (v' : α) (rest : Dict α)
    (h : k' ≠ k) :
    dictKeys (dictInsert k v ((k', v') :: rest)) = k' :: dictKeys (dictInsert k v rest) := by
  simp [dictInsert, dictKeys, h]

theorem mem_dictKeys_insert (a k : Key) (v : α) (l : Dict α) :
    a ∈ dictKeys (dictInsert k v l) ↔ a = k ∨ a ∈ dictKeys l := by
  induction l with
  | nil => simp [dictInsert, dictKeys]
  | cons p rest ih =>
    obtain ⟨k', v'⟩ := p
    by_cases h : k' = k
    · subst h
      simp [dictInsert, dictKeys]
    · rw [dictKeys_insert_of_ne k k' v v' rest h, List.mem_cons, ih]
      simp only [dictKeys, List.map_cons, List.mem_cons]
      tauto

theorem nodup_keys_insert (k : Key) (v : α) (l : Dict α) (h : (dictKeys l).Nodup) :
    (dictKeys (dictInsert k v l)).Nodup := by
  induction l with
  | nil => simp [dictInsert, dictKeys]
  | cons p rest ih =>
    obtain ⟨k', v'⟩ := p
    simp only [dictKeys, List.map_cons, List.nodup_cons] at h
    by_cases hk : k' = k
    · subst hk
      simpa [dictInsert, dictKeys] using h
    · have hmem : k' ∉ dictKeys (dictInsert k v rest) := by
        rw [mem_dictKeys_insert]
        push_neg
        exact ⟨hk, h.1⟩
      rw [dictKeys_insert_of_ne k k' v v' rest hk]
      exact List.nodup_cons.2 ⟨hmem, ih h.2⟩

theorem nodup_keys_erase (k : Key) (l : Dict α) (h : (dictKeys l).Nodup) :
    (dictKeys (dictErase k l)).Nodup := by
  rw [dictKeys_erase]
  exact h.filter _

theorem nodup_keys_applyEntry (b : Dict V) (k : Key) (e : Entry V)
    (h : (dictKeys b).Nodup) : (dictKeys (applyEntry b k e)).Nodup := by
  cases e with
  | Present v => exact nodup_keys_insert k v b h
  | Tombstone => exact nodup_keys_erase k b h

theorem nodup_keys_foldl_apply (staged : List (Key × Entry V)) (b : Dict V)
    (h : (dictKeys b).Nodup) :
    (dictKeys (staged.foldl (fun b p => applyEntry b p.1 p.2) b)).Nodup := by
  induction staged generalizing b with
  | nil => exact h
  | cons p rest ih =>
    exact ih (applyEntry b p.1 p.2) (nodup_keys_applyEntry b p.1 p.2 h)

/-- The base produced by the `flush` loop, characterised pointwise: the
staged entry for `k` wins (a tombstone removes `k`, a pending value
replaces it), and keys without a staged entry keep their base value.
Needs unique staged keys, which Python dicts guarantee. -/
theorem dictLookup_foldl_apply (staged : List (Key × Entry V)) (b : Dict V) (k : Key)
    (h : (dictKeys staged).Nodup) :
    dictLookup k (staged.foldl (fun b p => applyEntry b p.1 p.2) b) =
      match dictLookup k staged with
      | some (Entry.Present v) => some v
      | some Entry.Tombstone => none
      | none => dictLookup k b := by
  induction staged generalizing b with
  | nil => simp [dictLookup]
  | cons p rest ih =>
    obtain ⟨k1, e⟩ := p
    simp only [dictKeys, List.map_cons, List.nodup_cons] at h
    rw [List.foldl_cons, ih (applyEntry b k1 e) h.2]
    by_cases hk : k1 = k
    · subst hk
      have hnone : dictLookup k1 rest = none := (dictLookup_eq_none k1 rest).2 h.1
      rw [hnone]
      cases e with
      | Present v => simp [dictLookup, applyEntry, dictLookup_insert_self]
      | Tombstone => simp [dictLookup, applyEntry, dictLookup_erase_self]
    · have happ : dictLookup k (applyEntry b k1 e) = dictLookup k b := by
        cases e with
        | Present v => exact dictLookup_insert_ne k1 k v b (Ne.symm hk)
        | Tombstone => exact dictLookup_erase_ne k1 k b (Ne.symm hk)
      have hcons : dictLookup k ((k1, e) :: rest) = dictLookup k rest := by
        simp [dictLookup, hk]
      rw [hcons]
      cases hr : dictLookup k rest with
      | none => simp [happ]
      | some e' => cases e' <;> rfl

/-! Lemmas about the derived views of a `DictOverlay`. -/

theorem mem_valuesKeys (d : DictOverlay V) (k : Key) :
    k ∈ d.valuesKeys ↔ k ∈ dictKeys d.base ∨ k ∈ dictKeys d.staged := by
  simp only [DictOverlay.valuesKeys, List.mem_append, List.mem_filter,
    decide_eq_true_eq]
  tauto

theorem valuesLookup_isSome (d : DictOverlay V) (k : Key) :
    (d.valuesLookup k).isSome = true ↔ k ∈ dictKeys d.staged ∨ k ∈ dictKeys d.base := by
  unfold DictOverlay.valuesLookup
  cases hs : dictLookup k d.staged with
  | some e =>
    have : k ∈ dictKeys d.staged := (dictLookup_isSome k d.staged).1 (by rw [hs]; rfl)
    simp [this]
  | none =>
    have hns : k ∉ dictKeys d.staged := (dictLookup_eq_none k d.staged).1 hs
    cases hb : dictLookup k d.base with
    | some v =>
      have : k ∈ dictKeys d.base := (dictLookup_isSome k d.base).1 (by rw [hb]; rfl)
      simp [this]
    | none =>
      have hnb : k ∉ dictKeys d.base := (dictLookup_eq_none k d.base).1 hb
      simp [hns, hnb]

theorem isPresent_isSome (d : DictOverlay V) (k : Key) (h : d.isPresent k = true) :
    (d.valuesLookup k).isSome = true := by
  unfold DictOverlay.isPresent at h
  cases hv : d.valuesLookup k with
  | none => rw [hv] at h; exact absurd h (by simp)
  | some e => rfl

theorem mem_iterKeys (d : DictOverlay V) (k : Key) :
    k ∈ d.iterKeys ↔ d.isPresent k = true := by
  unfold DictOverlay.iterKeys
  rw [List.mem_filter]
  constructor
  · exact fun hp => hp.2
  · intro h
    refine ⟨?_, h⟩
    rw [mem_valuesKeys]
    exact ((valuesLookup_isSome d k).1 (isPresent_isSome d k h)).symm

theorem iterKeys_nodup (d : DictOverlay V) (h : d.WF) : d.iterKeys.Nodup := by
  apply List.Nodup.filter
  unfold DictOverlay.valuesKeys
  refine List.Nodup.append h.1 (h.2.filter _) ?_
  intro a ha hb
  rw [List.mem_filter, decide_eq_true_eq] at hb
  exact hb.2 ha

theorem length_eq_of_nodup_mem {l1 l2 : List Key} (h1 : l1.Nodup) (h2 : l2.Nodup)
    (hm : ∀ a, a ∈ l1 ↔ a ∈ l2) : l1.length = l2.length :=
  ((List.perm_ext_iff_of_nodup h1 h2).2 hm).length_eq

/-! Lemmas about `flush`. -/

theorem flush_valuesLookup (d : DictOverlay V) (h : (dictKeys d.staged).Nodup) (k : Key) :
    d.flush.valuesLookup k =
      match d.valuesLookup k with
      | some (Entry.Present v) => some (Entry.Present v)
      | some Entry.Tombstone => none
      | none => none := by
  unfold DictOverlay.valuesLookup DictOverlay.flush
  simp only [dictLookup]
  rw [dictLookup_foldl_apply d.staged d.base k h]
  cases hs : dictLookup k d.staged with
  | some e => cases e <;> rfl
  | none => cases hb : dictLookup k d.base <;> rfl

theorem flush_getItem (d : DictOverlay V) (h : (dictKeys d.staged).Nodup) (k : Key) :
    d.flush.getItem k = d.getItem k := by
  unfold DictOverlay.getItem
  rw [flush_valuesLookup d h k]
  cases hv : d.valuesLookup k with
  | some e => cases e <;> rfl
  | none => rfl

theorem flush_isPresent (d : DictOverlay V) (h : (dictKeys d.staged).Nodup) (k : Key) :
    d.flush.isPresent k = d.isPresent k := by
  unfold DictOverlay.isPresent
  rw [flush_valuesLookup d h k]
  cases hv : d.valuesLookup k with
  | some e => cases e <;> rfl
  | none => rfl

theorem flush_WF (d : DictOverlay V) (h : d.WF) : d.flush.WF :=
  ⟨nodup_keys_foldl_apply d.staged d.base h.1, List.nodup_nil⟩

theorem delD_base (d : DictOverlay V) (k : Key) : (d.delD k).base = d.base := by
  unfold DictOverlay.delD DictOverlay.delItem
  cases hv : d.valuesLookup k with
  | some e => cases e <;> rfl
  | none => rfl

theorem applyOp_base (d : DictOverlay V) (op : Op V) : (applyOp d op).base = d.base := by
  cases op <;> first | rfl | exact delD_base d _

/-! The claims. -/

/-- Claim C1: the spec requires `set(k, v)` to increment the size counter
exactly when `k` was not logically present before the call, including a
resurrection after a delete, keeping `size()` equal to the number of
present keys.  The code instead tests mere ChainMap membership, so a
tombstoned key suppresses the increment: starting from an empty base,
after `set(0, 1); delete(0); set(0, 2)` the key `0` is not logically
present before the final `set` (first conjunct), yet afterwards the
counter is `0` while exactly one key is logically present, breaking the
invariant the claim states. -/
theorem DictOverlay.resurrection_size_bug :
    (((DictOverlay.init ([] : Dict Nat)).setItem 0 1).delD 0).isPresent 0 = false ∧
    ((((DictOverlay.init ([] : Dict Nat)).setItem 0 1).delD 0).setItem 0 2).len = 0 ∧
    ((((DictOverlay.init ([] : Dict Nat)).setItem 0 1).delD 0).setItem 0 2).iterKeys.length = 1 := by
  decide

/-- Claim C2: the spec requires `changed()` to yield exactly the staged
`Present` keys and `deleted()` exactly the staged `Tombstone` keys,
raising for no key in the staging store.  The code's generator
expressions are malformed as written, and under their evident filter
reading both read each staged key back through `self[k]`, which raises
`KeyError` on tombstoned keys: with the single staged entry
`0 ↦ Tombstone` both enumerations raise instead of yielding `0` from
`deleted()` and nothing from `changed()`. -/
theorem DictOverlay.changed_deleted_raise_bug :
    (((DictOverlay.init ([] : Dict Nat)).setItem 0 1).delD 0).staged =
      [(0, Entry.Tombstone)] ∧
    (((DictOverlay.init ([] : Dict Nat)).setItem 0 1).delD 0).deleted = Except.error 0 ∧
    (((DictOverlay.init ([] : Dict Nat)).setItem 0 1).delD 0).changed = Except.error 0 :=
  ⟨rfl, rfl, rfl⟩

/-- Claim C4: `get(k)` returns the staged value when the staged entry is
`Present`, fails with `KeyError(k)` when it is a tombstone, and
otherwise falls through to the base, failing when the key is absent
there too.  (`getItem` is a pure function of the state, so it has no
side effect on the overlay or the base.) -/
theorem DictOverlay.getItem_spec (d : DictOverlay V) (k : Key) :
    d.getItem k =
      match dictLookup k d.staged with
      | some (Entry.Present v) => Except.ok v
      | some Entry.Tombstone => Except.error k
      | none =>
        match dictLookup k d.base with
        | some v => Except.ok v
        | none => Except.error k := by
  unfold DictOverlay.getItem DictOverlay.valuesLookup
  cases hs : dictLookup k d.staged with
  | some e => cases e <;> rfl
  | none => cases hb : dictLookup k d.base <;> rfl

/-- Claim C5: `delete(k)` fails with `KeyError` exactly when `k` is not
logically present (absent everywhere, or already tombstoned — so a
second consecutive delete fails), and otherwise stages a tombstone for
`k` and decrements the size counter by one, leaving the base alone. -/
theorem DictOverlay.delItem_spec (d : DictOverlay V) (k : Key) :
    (d.isPresent k = false → d.delItem k = Except.error k) ∧
    (d.isPresent k = true →
      d.delItem k = Except.ok
        { base := d.base, staged := dictInsert k Entry.Tombstone d.staged,
          len := d.len - 1 }) ∧
    (∀ d2 : DictOverlay V, d.delItem k = Except.ok d2 → d2.delItem k = Except.error k) := by
  refine ⟨?_, ?_, ?_⟩
  · intro h
    unfold DictOverlay.isPresent at h
    unfold DictOverlay.delItem
    cases hv : d.valuesLookup k with
    | some e =>
      cases e with
      | Present v => rw [hv] at h; exact absurd h (by simp)
      | Tombstone => rfl
    | none => rfl
  · intro h
    unfold DictOverlay.isPresent at h
    unfold DictOverlay.delItem
    cases hv : d.valuesLookup k with
    | some e =>
      cases e with
      | Present v => rfl
      | Tombstone => rw [hv] at h; exact absurd h (by simp)
    | none => rw [hv] at h; exact absurd h (by simp)
  · intro d2 h
    unfold DictOverlay.delItem at h
    cases hv : d.valuesLookup k with
    | some e =>
      cases e with
      | Present v =>
        rw [hv] at h
        simp only [Except.ok.injEq] at h
        subst h
        unfold DictOverlay.delItem DictOverlay.valuesLookup
        simp [dictLookup_insert_self]
      | Tombstone => rw [hv] at h; exact absurd h (by simp)
    | none => rw [hv] at h; exact absurd h (by simp)

/-- Witness for claim C5: on the overlay over base `0 ↦ 5` the key `0`
is present, `delete(0)` stages a tombstone and drops the counter to 0,
and a second `delete(0)` fails with `KeyError(0)`. -/
theorem DictOverlay.delItem_spec_witness :
    (DictOverlay.init [(0, 5)]).isPresent 0 = true ∧
    (DictOverlay.init [(0, 5)]).delItem 0 =
      Except.ok { base := [(0, 5)], staged := [(0, Entry.Tombstone)], len := 0 } ∧
    (DictOverlay.mk [(0, 5)] [(0, Entry.Tombstone)] 0).delItem 0 = Except.error 0 := by
  have h1 : (DictOverlay.init [(0, 5)]).isPresent 0 = true := by decide
  have h2 := (DictOverlay.delItem_spec (DictOverlay.init [(0, 5)]) 0).2.1 h1
  have h3 := (DictOverlay.delItem_spec (DictOverlay.init [(0, 5)]) 0).2.2
    { base := [(0, 5)], staged := [(0, Entry.Tombstone)], len := 0 } (by exact h2)
  exact ⟨h1, h2, h3⟩

/-- Claim C6: `discard()` clears the staging store and resets the size
counter to the base's current size; the resulting state is literally
that of a freshly constructed overlay over the current base, so every
observation (`get`, `enumerate`, `size`) coincides with it. -/
theorem DictOverlay.reset_spec (d : DictOverlay V) :
    d.reset = DictOverlay.init d.base := rfl

/-- Claim C7: over any sequence of `get`, `set`, `delete`, `changed`,
`deleted`, `enumerate`, `size` and `discard` calls the base dict is
never modified; only `commit` writes to it. -/
theorem run_base_frame (d : DictOverlay V) (ops : List (Op V)) :
    (run d ops).base = d.base := by
  induction ops generalizing d with
  | nil => rfl
  | cons op rest ih =>
    show (run (applyOp d op) rest).base = d.base
    rw [ih (applyOp d op), applyOp_base]

/-- Claim C10: `contains(k)` (the `in` operator, inherited from
`Mapping` via `__getitem__`) returns true exactly on the logically
present keys: tombstoned keys report absent, staged `Present` keys
report present even when missing from the base; it is a pure function,
raising nothing and mutating nothing. -/
theorem DictOverlay.contains_spec (d : DictOverlay V) (k : Key) :
    d.contains k = d.isPresent k := by
  unfold DictOverlay.contains DictOverlay.getItem DictOverlay.isPresent
  cases hv : d.valuesLookup k with
  | some e => cases e <;> rfl
  | none => rfl

theorem isPresent_iff (d : DictOverlay V) (k : Key) :
    d.isPresent k = true ↔
      ((∃ v, dictLookup k d.staged = some (Entry.Present v)) ∨
        (dictLookup k d.staged = none ∧ k ∈ dictKeys d.base)) := by
  unfold DictOverlay.isPresent DictOverlay.valuesLookup
  cases hs : dictLookup k d.staged with
  | some e => cases e <;> simp
  | none =>
    cases hb : dictLookup k d.base with
    | some v =>
      have hmem : k ∈ dictKeys d.base := (dictLookup_isSome k d.base).1 (by rw [hb]; rfl)
      simp [hb, hmem]
    | none =>
      have hnb : k ∉ dictKeys d.base := (dictLookup_eq_none k d.base).1 hb
      simp [hb, hnb]

/-- Claim C8: `enumerate()` yields exactly the logically present keys,
each exactly once: every staged `Present` key plus every base key with
no staged entry (so base keys tombstoned by staging are excluded and no
logically absent key appears). -/
theorem DictOverlay.iter_spec (d : DictOverlay V) (h : d.WF) :
    (∀ k, k ∈ d.iterKeys ↔
      ((∃ v, dictLookup k d.staged = some (Entry.Present v)) ∨
        (dictLookup k d.staged = none ∧ k ∈ dictKeys d.base))) ∧
    d.iterKeys.Nodup :=
  ⟨fun k => (mem_iterKeys d k).trans (isPresent_iff d k), iterKeys_nodup d h⟩

/-- Witness for claim C8: on the worked example, the staged-only key `2`
is enumerated, and the enumeration has no duplicate key. -/
theorem DictOverlay.iter_spec_witness :
    exOverlay.WF ∧
    (2 ∈ exOverlay.iterKeys ↔
      ((∃ v, dictLookup 2 exOverlay.staged = some (Entry.Present v)) ∨
        (dictLookup 2 exOverlay.staged = none ∧ 2 ∈ dictKeys exOverlay.base))) ∧
    exOverlay.iterKeys.Nodup := by
  have hwf : exOverlay.WF := ⟨by decide, by decide⟩
  have h := DictOverlay.iter_spec exOverlay hwf
  exact ⟨hwf, h.1 2, h.2⟩

/-- Claim C3: for a well-formed overlay satisfying the size invariant,
`commit()` applies every staged tombstone as a removal from the base
(a no-op when the key is absent there), writes every staged `Present`
value into the base, clears the staging store, leaves the size counter
untouched, and leaves the logical view unchanged: `get` answers the
same on every key, `enumerate` ranges over the same keys, and the size
counter still counts the present keys. -/
theorem DictOverlay.flush_spec (d : DictOverlay V) (hwf : d.WF) (hinv : d.sizeInv) :
    d.flush.staged = [] ∧
    d.flush.len = d.len ∧
    (∀ k, dictLookup k d.flush.base =
      match dictLookup k d.staged with
      | some (Entry.Present v) => some v
      | some Entry.Tombstone => none
      | none => dictLookup k d.base) ∧
    (∀ k, d.flush.getItem k = d.getItem k) ∧
    (∀ k, k ∈ d.flush.iterKeys ↔ k ∈ d.iterKeys) ∧
    d.flush.sizeInv := by
  have hs := hwf.2
  refine ⟨rfl, rfl, ?_, ?_, ?_, ?_⟩
  · exact fun k => dictLookup_foldl_apply d.staged d.base k hs
  · exact fun k => flush_getItem d hs k
  · intro k
    rw [mem_iterKeys, mem_iterKeys, flush_isPresent d hs k]
  · have hlen : d.iterKeys.length = d.flush.iterKeys.length :=
      length_eq_of_nodup_mem (iterKeys_nodup d hwf)
        (iterKeys_nodup d.flush (flush_WF d hwf))
        (fun a => by rw [mem_iterKeys, mem_iterKeys, flush_isPresent d hs a])
    unfold DictOverlay.sizeInv at hinv ⊢
    calc d.flush.len = d.len := rfl
      _ = (d.iterKeys.length : Int) := hinv
      _ = (d.flush.iterKeys.length : Int) := by rw [hlen]

/-- Witness for claim C3: the worked example is well formed, satisfies
the size invariant, and committing it empties staging, keeps the
counter at 2, preserves the lookup of the tombstoned key `1`, keeps the
enumeration of key `1` unchanged, and maintains the invariant. -/
theorem DictOverlay.flush_spec_witness :
    exOverlay.WF ∧ exOverlay.sizeInv ∧
    exOverlay.flush.staged = [] ∧
    exOverlay.flush.len = exOverlay.len ∧
    exOverlay.flush.getItem 1 = exOverlay.getItem 1 ∧
    (1 ∈ exOverlay.flush.iterKeys ↔ 1 ∈ exOverlay.iterKeys) ∧
    exOverlay.flush.sizeInv := by
  have hwf : exOverlay.WF := ⟨by decide, by decide⟩
  have hinv : exOverlay.sizeInv := by unfold DictOverlay.sizeInv; decide
  have h := DictOverlay.flush_spec exOverlay hwf hinv
  exact ⟨hwf, hinv, h.1, h.2.1, h.2.2.2.1 1, h.2.2.2.2.1 1, h.2.2.2.2.2⟩

theorem flushFAux_failure (fail : Key → Bool) (staged : List (Key × Entry V)) (b : Dict V)
    (h : (flushFAux fail b staged).2 = false) :
    ∃ pre k v post, staged = pre ++ (k, Entry.Present v) :: post ∧ fail k = true ∧
      (flushFAux fail b staged).1 = pre.foldl (fun b p => applyEntry b p.1 p.2) b := by
  induction staged generalizing b with
  | nil => simp [flushFAux] at h
  | cons p rest ih =>
    obtain ⟨k1, e⟩ := p
    cases e with
    | Tombstone =>
      have h2 : (flushFAux fail (dictErase k1 b) rest).2 = false := by
        simpa [flushFAux] using h
      obtain ⟨pre, k, v, post, heq, hf, hb⟩ := ih (dictErase k1 b) h2
      refine ⟨(k1, Entry.Tombstone) :: pre, k, v, post, by rw [heq]; rfl, hf, ?_⟩
      simpa [flushFAux, applyEntry] using hb
    | Present v1 =>
      by_cases hf1 : fail k1 = true
      · refine ⟨[], k1, v1, rest, rfl, hf1, ?_⟩
        simp [flushFAux, hf1]
      · have hf2 : fail k1 = false := by
          cases hfv : fail k1 with
          | true => exact absurd hfv hf1
          | false => rfl
        have h2 : (flushFAux fail (dictInsert k1 v1 b) rest).2 = false := by
          simpa [flushFAux, hf2] using h
        obtain ⟨pre, k, v, post, heq, hf, hb⟩ := ih (dictInsert k1 v1 b) h2
        refine ⟨(k1, Entry.Present v1) :: pre, k, v, post, by rw [heq]; rfl, hf, ?_⟩
        simpa [flushFAux, hf2, applyEntry] using hb

/-- Claim C9: when a base write raises partway through `commit()`, the
failure surfaces to the caller, the staging store is left exactly as it
was before the call (`self.staged.clear()` is never reached, and the
loop never edits the staging store), the cached length is untouched,
and the staged entries processed before the failing one remain applied
to the base: the staging list splits around a failing `Present` entry,
with the base equal to the prefix folded into the original base. -/
theorem DictOverlay.flushF_failure_spec (fail : Key → Bool) (d : DictOverlay V)
    (h : (flushF fail d).2 = false) :
    (flushF fail d).1.staged = d.staged ∧
    (flushF fail d).1.len = d.len ∧
    ∃ pre k v post, d.staged = pre ++ (k, Entry.Present v) :: post ∧ fail k = true ∧
      (flushF fail d).1.base = pre.foldl (fun b p => applyEntry b p.1 p.2) d.base := by
  cases hr : (flushFAux fail d.base d.staged).2 with
  | true =>
    rw [flushF, if_pos hr] at h
    exact absurd h (by simp)
  | false =>
    have hfl : flushF fail d =
        ({ d with base := (flushFAux fail d.base d.staged).1 }, false) := by
      rw [flushF, if_neg (by rw [hr]; exact Bool.false_ne_true)]
    obtain ⟨pre, k, v, post, heq, hf, hb⟩ := flushFAux_failure fail d.staged d.base hr
    rw [hfl]
    exact ⟨rfl, rfl, pre, k, v, post, heq, hf, hb⟩

/-- Witness for claim C9: on the worked example with a base that raises
when key `2` is written, `commit` fails, staging and the counter are
untouched, and the base holds exactly the effect of the prefix before
the failing entry (the tombstone for `1` was applied). -/
theorem DictOverlay.flushF_failure_witness :
    (flushF (fun k => decide (k = 2)) exOverlay).2 = false ∧
    (flushF (fun k => decide (k = 2)) exOverlay).1.staged = exOverlay.staged ∧
    (flushF (fun k => decide (k = 2)) exOverlay).1.len = exOverlay.len ∧
    ∃ pre k v post,
      exOverlay.staged = pre ++ (k, Entry.Present v) :: post ∧
      (fun k => decide (k = 2)) k = true ∧
      (flushF (fun k => decide (k = 2)) exOverlay).1.base =
        pre.foldl (fun b p => applyEntry b p.1 p.2) exOverlay.base := by
  have hfail : (flushF (fun k => decide (k = 2)) exOverlay).2 = false := by decide
  have h := DictOverlay.flushF_failure_spec (fun k => decide (k = 2)) exOverlay hfail
  exact ⟨hfail, h.1, h.2.1, h.2.2⟩
